import Mathlib

/-!
# Shallow embedding of gh-custom-roles

A Lean model of the pure core of `src/cmd/create.go` together with the
flag/validation setup of the root command (`src/unnamed/part_002`).

* String helpers mirror the Go standard-library calls the code makes
  (`strings.ToLower`, `strings.TrimSpace`, `strings.Contains`), modelled
  character-wise over `List Char` (the code is only ever applied to ASCII
  organization, role and error-message text).
* The remote API (`gh api` calls) is modelled by per-target behaviours: the
  result of the `roleExists` lookup and of the `createCustomRole` POST.
* The batch-execution engine of `runCreate` is modelled twice, matching the
  two strategies in the source: the sequential delay loop (create.go:229-274)
  as a recursive function that also records its event trace, and the
  goroutine pool (create.go:276-332) as a small interleaving semantics over
  the goroutine body's instruction sequence plus a completion-order fold for
  the final counters.
-/

/-- Character-wise model of Go `strings.ToLower` (ASCII case mapping). -/
def strLower (s : String) : String := ⟨s.data.map Char.toLower⟩

/-- Drop whitespace from both ends of a character list. -/
def trimChars (l : List Char) : List Char :=
  ((l.dropWhile Char.isWhitespace).reverse.dropWhile Char.isWhitespace).reverse

/-- Model of Go `strings.TrimSpace`. -/
def strTrim (s : String) : String := ⟨trimChars s.data⟩

/-- `normalizeOrg` (create.go:374-376): `strings.ToLower(strings.TrimSpace(org))`. -/
def normalizeOrg (org : String) : String := strLower (strTrim org)

/-- `sub` occurs contiguously in `l` (model of Go `strings.Contains`). -/
def containsSubList : List Char → List Char → Bool
  | [], sub => sub.isEmpty
  | c :: rest, sub => sub.isPrefixOf (c :: rest) || containsSubList rest sub

/-- Go `strings.Contains(s, sub)` on the model strings. -/
def strContainsSub (s sub : String) : Bool := containsSubList s.data sub.data

/-- `isNotFoundError` (create.go:657-663): a `nil` error is not "not found";
otherwise lower-case the message and look for the substrings "404" or
"not found".  `none` models a `nil` Go error, `some msg` an error whose
`Error()` text is `msg`. -/
def isNotFoundError : Option String → Bool
  | none => false
  | some msg =>
    let errorText := strLower msg
    strContainsSub errorText "404" || strContainsSub errorText "not found"

/-- The loop of `uniqueStrings` (create.go:491-502) with the `seen` map made
an explicit list: empty values and already-seen values are skipped, first
occurrences are appended in input order. -/
def dedupGo (seen : List String) : List String → List String
  | [] => []
  | value :: rest =>
    if value == "" || seen.contains value then dedupGo seen rest
    else value :: dedupGo (value :: seen) rest

/-- `uniqueStrings` (create.go:491-502). -/
def uniqueStrings (values : List String) : List String := dedupGo [] values

/-- The cell loop of `loadOrganizationsFromCSV` (create.go:393-404): each cell
is normalized on ingest, empty or already-seen values are skipped, the rest
are appended in visit order, with one `orgSet` shared across all rows. -/
def csvCellsGo (seen : List String) : List String → List String
  | [] => []
  | value :: rest =>
    let org := normalizeOrg value
    if org == "" || seen.contains org then csvCellsGo seen rest
    else org :: csvCellsGo (org :: seen) rest

/-- Pure core of `loadOrganizationsFromCSV` (create.go:378-406).  The file
open and CSV parse are external I/O; `records` is the parsed rows-of-cells
value `csv.ReadAll` returns.  The two nested loops visit every cell in
row-major order, i.e. the cells of `records.flatten` in order, sharing one
`orgSet` and one output slice. -/
def loadOrganizationsFromCSV (records : List (List String)) : List String :=
  csvCellsGo [] records.flatten

/-- Spec-side characterization (for comparison with the code's functions):
first-seen deduplication that also removes empty strings. -/
def specDedup : List String → List String
  | [] => []
  | x :: xs =>
    if x = "" then specDedup xs
    else x :: specDedup (xs.filter (fun y => y != x))
termination_by l => l.length
decreasing_by
  · exact Nat.lt_succ_of_le (Nat.le_refl _)
  · exact Nat.lt_succ_of_le (List.length_filter_le _ _)

/-- Pure core of `roleExists` (create.go:504-522), given the names in the
`custom_roles` payload: the query is trimmed and lower-cased once
(create.go:515), then each existing role name is lower-cased — not trimmed —
and compared for (whole-string) equality (create.go:516-520). -/
def roleExistsCore (existingNames : List String) (roleName : String) : Bool :=
  let q := strLower (strTrim roleName)
  existingNames.any (fun name => strLower name == q)

deriving instance DecidableEq for Except

/-- The remote behaviour one target exhibits during its pipeline:
the outcome of the `roleExists` lookup (`Except.error msg` models a non-nil
Go error) and of the `createCustomRole` call (`some msg` models a non-nil
error, `none` success). -/
structure TargetBehavior where
  existsResult : Except String Bool
  createResult : Option String
deriving DecidableEq, Repr

/-- Terminal classification of one target, as both the sequential loop
(create.go:230-268) and the goroutine body (create.go:289-327) branch:
a failing existence check is a warning when `isNotFoundError`, otherwise an
error; an existing role is a warning; a failing create is a warning when
`isNotFoundError`, otherwise an error; otherwise the role was created. -/
inductive Outcome where
  | created
  | skippedAlreadyExists
  | skippedNotFound
  | failed
deriving DecidableEq, Repr

/-- The aggregate counters of `runCreate` (create.go:224-226). -/
structure Counters where
  successCount : Nat
  warningCount : Nat
  errorCount : Nat
deriving DecidableEq, Repr

/-- Initial counters (create.go:224-226). -/
def counters0 : Counters := ⟨0, 0, 0⟩

/-- Which counter each terminal branch increments: `successCount++` on the
created path, `warningCount++` on both skip paths, `errorCount++` on the
failure paths (create.go:236-267 and 292-324). -/
def bump (c : Counters) : Outcome → Counters
  | Outcome.created => { c with successCount := c.successCount + 1 }
  | Outcome.skippedAlreadyExists => { c with warningCount := c.warningCount + 1 }
  | Outcome.skippedNotFound => { c with warningCount := c.warningCount + 1 }
  | Outcome.failed => { c with errorCount := c.errorCount + 1 }

def sumCounters (c : Counters) : Nat :=
  c.successCount + c.warningCount + c.errorCount

/-- The shared branch structure of both execution strategies, as a function
from a target's remote behaviour to its terminal classification. -/
def classify (b : TargetBehavior) : Outcome :=
  match b.existsResult with
  | Except.error e =>
    if isNotFoundError (some e) then Outcome.skippedNotFound else Outcome.failed
  | Except.ok true => Outcome.skippedAlreadyExists
  | Except.ok false =>
    match b.createResult with
    | some e =>
      if isNotFoundError (some e) then Outcome.skippedNotFound else Outcome.failed
    | none => Outcome.created

/-- Observable events of the sequential run: one status unit per target
(status line + counter increment + progress tick) and the `time.Sleep`
pauses. -/
inductive Event where
  | status (org : String) (outcome : Outcome)
  | sleep (seconds : Nat)
deriving DecidableEq, Repr

/-- The delay-mode loop (create.go:229-274), returning the final counters and
the event trace.  Every non-success branch ends in `continue`, which skips
the `time.Sleep` at the bottom of the loop body; the sleep runs only on the
success path and only when the target is not the last one
(`i < len(validOrgs)-1`, i.e. the remaining list is nonempty). -/
def runDelayLoop (env : String → TargetBehavior) (d : Nat) :
    List String → Counters → Counters × List Event
  | [], c => (c, [])
  | org :: rest, c =>
    match (env org).existsResult with
    | Except.error e =>
      let o := if isNotFoundError (some e) then Outcome.skippedNotFound else Outcome.failed
      let r := runDelayLoop env d rest (bump c o)
      (r.1, Event.status org o :: r.2)
    | Except.ok true =>
      let r := runDelayLoop env d rest (bump c Outcome.skippedAlreadyExists)
      (r.1, Event.status org Outcome.skippedAlreadyExists :: r.2)
    | Except.ok false =>
      match (env org).createResult with
      | some e =>
        let o := if isNotFoundError (some e) then Outcome.skippedNotFound else Outcome.failed
        let r := runDelayLoop env d rest (bump c o)
        (r.1, Event.status org o :: r.2)
      | none =>
        let r := runDelayLoop env d rest (bump c Outcome.created)
        let sleeps : List Event := if rest.isEmpty then [] else [Event.sleep d]
        (r.1, Event.status org Outcome.created :: (sleeps ++ r.2))

/-- Spec-side trace of the amended delay-mode pacing claim: one status event
per target in list order, and a pause after a target exactly when its outcome
was `created` and it is not the last target. -/
def delayTraceSpec (env : String → TargetBehavior) (d : Nat) : List String → List Event
  | [] => []
  | org :: rest =>
    Event.status org (classify (env org)) ::
      ((if classify (env org) = Outcome.created ∧ rest ≠ [] then [Event.sleep d] else []) ++
        delayTraceSpec env d rest)

/-- Claim-side trace of the delay-mode pacing claim as frozen: a pause after
every target except the last, regardless of the target's outcome. -/
def claimedDelayTrace (env : String → TargetBehavior) (d : Nat) : List Event →
    List String → List Event
  | acc, [] => acc.reverse
  | acc, [org] => (Event.status org (classify (env org)) :: acc).reverse
  | acc, org :: rest =>
    claimedDelayTrace env d (Event.sleep d :: Event.status org (classify (env org)) :: acc) rest

/-- The status units of a trace, in order. -/
def statusEvents (trace : List Event) : List (String × Outcome) :=
  trace.filterMap (fun e =>
    match e with
    | Event.status org o => some (org, o)
    | Event.sleep _ => none)

/-- Final counters of the concurrency-mode run (create.go:276-332), modelled
over the completion order of the goroutines: each target spawns exactly one
goroutine, the mutex makes each goroutine's counter update atomic, and
`wg.Wait` joins them all, so the final counters are the per-target branch
increments folded over some permutation of the target list. -/
def concurrentCounters (env : String → TargetBehavior) (completionOrder : List String)
    (c : Counters) : Counters :=
  completionOrder.foldl (fun acc org => bump acc (classify (env org))) c

/-- The overall result of `runCreate` after the batch (create.go:355-358):
a non-nil error iff `errorCount > 0`, with the error message built from the
count; warnings never influence it. -/
def finalRunError (c : Counters) : Option String :=
  if 0 < c.errorCount then some ("completed with " ++ toString c.errorCount ++ " errors")
  else none

/-- The `--delay` / `--concurrency` flag state cobra hands to the program
(`src/unnamed/part_002`, init): each flag records whether the user set it and
the value given; `--delay` defaults to 0, `--concurrency` to 1. -/
structure FlagInput where
  delaySet : Bool
  delayValue : Int
  concurrencySet : Bool
  concurrencyValue : Int
deriving DecidableEq, Repr

/-- Parsed delay: the given value when `--delay` was set, else the default 0. -/
def effectiveDelay (f : FlagInput) : Int :=
  if f.delaySet then f.delayValue else 0

/-- Parsed concurrency: the given value when `--concurrency` was set, else the
default 1. -/
def effectiveConcurrency (f : FlagInput) : Int :=
  if f.concurrencySet then f.concurrencyValue else 1

inductive ConfigError where
  | mutuallyExclusiveFlags
  | concurrencyOutOfRange (got : Int)
  | negativeDelay (got : Int)
deriving DecidableEq, Repr

/-- The strategy checks in program order: cobra's
`MarkFlagsMutuallyExclusive("delay", "concurrency")` (src/unnamed/part_002:28)
rejects any invocation that sets both flags, before `RunE` runs; then
`runCreate` rejects concurrency outside 1..20 (create.go:199-201) and a
negative delay (create.go:204-206), both before the progress bar and the
batch loops start. -/
def validateStrategy (f : FlagInput) : Except ConfigError Unit :=
  if f.delaySet && f.concurrencySet then
    Except.error ConfigError.mutuallyExclusiveFlags
  else if effectiveConcurrency f < 1 ∨ 20 < effectiveConcurrency f then
    Except.error (ConfigError.concurrencyOutOfRange (effectiveConcurrency f))
  else if effectiveDelay f < 0 then
    Except.error (ConfigError.negativeDelay (effectiveDelay f))
  else Except.ok ()

/-- Strategy selection and batch run of `runCreate`, downstream of the flag
validation: with the checks passed, `delay > 0` selects the sequential loop
(create.go:229), anything else the goroutine pool (create.go:275-332). -/
def runCreateBatch (f : FlagInput) (env : String → TargetBehavior)
    (orgs completionOrder : List String) : Except ConfigError Counters :=
  match validateStrategy f with
  | Except.error e => Except.error e
  | Except.ok _ =>
    if 0 < effectiveDelay f then
      Except.ok (runDelayLoop env (effectiveDelay f).toNat orgs counters0).1
    else Except.ok (concurrentCounters env completionOrder counters0)

/-- One page of the enterprise-organizations GraphQL response
(create.go:599-613): the logins of this page, the `hasNextPage` flag and the
`endCursor` token. -/
structure OrgPage where
  logins : List String
  hasNextPage : Bool
  endCursor : String
deriving DecidableEq, Repr

/-- The pagination loop of `fetchOrganizations` (create.go:576-639), with the
transport modelled as the list of responses the successive `gh api graphql`
calls return in order: a failing request or parse aborts the loop and
surfaces that error; a good page appends its normalized logins and the loop
continues iff `hasNextPage`; on normal exit the accumulated logins are
deduplicated (create.go:641).  `none` means the response list ran out while
the loop still wanted another page (the environment was under-specified). -/
def fetchOrgsPages : List (Except String OrgPage) → List String →
    Option (Except String (List String))
  | [], _ => none
  | Except.error e :: _, _ => some (Except.error e)
  | Except.ok page :: rest, orgs =>
    let orgs2 := orgs ++ page.logins.map normalizeOrg
    if page.hasNextPage then fetchOrgsPages rest orgs2
    else some (Except.ok (uniqueStrings orgs2))

/-- `fetchOrganizations` (create.go:557-642): the missing-enterprise guard,
then the pagination loop started with an empty accumulator. -/
def fetchOrganizations (enterprise : String)
    (responses : List (Except String OrgPage)) :
    Option (Except String (List String)) :=
  if enterprise == "" then some (Except.error "--enterprise flag is required")
  else fetchOrgsPages responses []

/-- The three per-target terminal effects guarded by the mutex in the
goroutine body: the status line, the counter increment and the progress-bar
tick. -/
inductive EffKind where
  | statusLine
  | counterUpdate
  | progressTick
deriving DecidableEq, Repr

/-- Instructions of the goroutine body: mutex acquire/release, one of the
three terminal effects, or un-shared work (the remote calls). -/
inductive Instr where
  | lock
  | unlock
  | eff (k : EffKind)
  | work
deriving DecidableEq, Repr

/-- The goroutine body of the concurrency-mode run (create.go:285-328) as its
sequence of shared-state-relevant steps.  The `roleExists` call (and, on the
create path, the `createCustomRole` call) run outside the mutex as `work`;
in every branch the status line, the counter increment and the
`progressBar.Increment()` all sit between `mu.Lock()` and `mu.Unlock()`. -/
def concBody (b : TargetBehavior) : List Instr :=
  match b.existsResult with
  | Except.error _ =>
    [Instr.work, Instr.lock, Instr.eff EffKind.statusLine,
     Instr.eff EffKind.counterUpdate, Instr.eff EffKind.progressTick, Instr.unlock]
  | Except.ok true =>
    [Instr.work, Instr.lock, Instr.eff EffKind.statusLine,
     Instr.eff EffKind.counterUpdate, Instr.eff EffKind.progressTick, Instr.unlock]
  | Except.ok false =>
    [Instr.work, Instr.work, Instr.lock, Instr.eff EffKind.statusLine,
     Instr.eff EffKind.counterUpdate, Instr.eff EffKind.progressTick, Instr.unlock]

/-- Number of instructions before the `mu.Lock()` in the goroutine body. -/
def preLen (b : TargetBehavior) : Nat :=
  match b.existsResult with
  | Except.ok false => 2
  | _ => 1

/-- Scheduler state of the goroutine pool: how many instructions of its body
each goroutine has executed, and which goroutine currently holds the mutex. -/
structure SchedState (n : Nat) where
  done : Fin n → Nat
  holder : Option (Fin n)

/-- All goroutines at their first instruction, mutex free. -/
def initState (n : Nat) : SchedState n := ⟨fun _ => 0, none⟩

/-- The next instruction of goroutine `t`. -/
def bodyAt {n : Nat} (body : Fin n → List Instr) (s : SchedState n) (t : Fin n) :
    Option Instr :=
  (body t)[s.done t]?

/-- One interleaving step of the goroutine pool: some goroutine executes its
next instruction; `mu.Lock()` blocks until the mutex is free, `mu.Unlock()`
is executed by the holder, everything else is non-blocking. -/
inductive GoStep {n : Nat} (body : Fin n → List Instr) :
    SchedState n → Fin n × Instr → SchedState n → Prop where
  | lock (s : SchedState n) (t : Fin n) :
      bodyAt body s t = some Instr.lock → s.holder = none →
      GoStep body s (t, Instr.lock)
        ⟨Function.update s.done t (s.done t + 1), some t⟩
  | unlock (s : SchedState n) (t : Fin n) :
      bodyAt body s t = some Instr.unlock → s.holder = some t →
      GoStep body s (t, Instr.unlock)
        ⟨Function.update s.done t (s.done t + 1), none⟩
  | basic (s : SchedState n) (t : Fin n) (i : Instr) :
      bodyAt body s t = some i → i ≠ Instr.lock → i ≠ Instr.unlock →
      GoStep body s (t, i)
        ⟨Function.update s.done t (s.done t + 1), s.holder⟩

/-- A finite execution of the pool from `s0`: the list of (goroutine,
instruction) events in the order they happened, ending in state `s`. -/
inductive GoTrace {n : Nat} (body : Fin n → List Instr) (s0 : SchedState n) :
    List (Fin n × Instr) → SchedState n → Prop where
  | nil : GoTrace body s0 [] s0
  | snoc (tr : List (Fin n × Instr)) (s : SchedState n) (e : Fin n × Instr)
      (s2 : SchedState n) :
      GoTrace body s0 tr s → GoStep body s e s2 → GoTrace body s0 (tr ++ [e]) s2

/-- The instructions goroutine `t` executed in a trace, in order. -/
def eventsOf {n : Nat} (t : Fin n) (tr : List (Fin n × Instr)) : List Instr :=
  tr.filterMap (fun e => if e.1 = t then some e.2 else none)

/-- Two goroutines' effect units interleave in a trace: an effect of `t`,
then an effect of `t2`, then another effect of `t` again. -/
def EffInterleaved {n : Nat} (tr : List (Fin n × Instr)) (t t2 : Fin n) : Prop :=
  ∃ l1 k1 l2 k2 l3 k3 l4,
    tr = l1 ++ (t, Instr.eff k1) :: l2 ++ (t2, Instr.eff k2) :: l3 ++
      (t, Instr.eff k3) :: l4

/-- Scheduler invariant: no goroutine is past the end of its body, and the
mutex is held by exactly the goroutines (at most one) whose next instruction
lies strictly between their `mu.Lock()` and just past their `mu.Unlock()`. -/
def InvProp {n : Nat} (B : Fin n → TargetBehavior) (s : SchedState n) : Prop :=
  (∀ t, s.done t ≤ preLen (B t) + 5) ∧
  (∀ t, s.holder = some t ↔
    (preLen (B t) < s.done t ∧ s.done t ≤ preLen (B t) + 4))

/-! ## Deduplication lemmas (`uniqueStrings`, CSV resolver) -/

lemma contains_iff_mem (l : List String) (x : String) :
    l.contains x = true ↔ x ∈ l :=
  List.elem_iff

lemma dedupGo_sublist (seen l : List String) :
    List.Sublist (dedupGo seen l) l := by
  induction l generalizing seen with
  | nil => simp [dedupGo]
  | cons v vs ih =>
    simp only [dedupGo]
    by_cases h : (v == "" || seen.contains v) = true
    · rw [if_pos h]
      exact List.Sublist.cons v (ih seen)
    · rw [if_neg h]
      exact List.Sublist.cons₂ v (ih (v :: seen))

lemma mem_dedupGo (seen l : List String) (x : String) :
    x ∈ dedupGo seen l ↔ (x ∈ l ∧ x ≠ "" ∧ x ∉ seen) := by
  induction l generalizing seen with
  | nil => simp [dedupGo]
  | cons v vs ih =>
    simp only [dedupGo]
    by_cases h : (v == "" || seen.contains v) = true
    · rw [if_pos h]
      rw [ih seen]
      simp only [Bool.or_eq_true, beq_iff_eq, contains_iff_mem] at h
      constructor
      · rintro ⟨hx, hne, hns⟩
        exact ⟨List.mem_cons_of_mem v hx, hne, hns⟩
      · rintro ⟨hx, hne, hns⟩
        rcases List.mem_cons.mp hx with hx | hx
        · subst hx
          rcases h with h | h
          · exact absurd h hne
          · exact absurd h hns
        · exact ⟨hx, hne, hns⟩
    · rw [if_neg h]
      simp only [Bool.or_eq_true, beq_iff_eq, contains_iff_mem] at h
      push_neg at h
      obtain ⟨hv1, hv2⟩ := h
      simp only [List.mem_cons, ih (v :: seen)]
      constructor
      · rintro (hx | ⟨hx, hne, hns⟩)
        · subst hx
          exact ⟨Or.inl rfl, hv1, hv2⟩
        · exact ⟨Or.inr hx, hne, fun hmem => hns (Or.inr hmem)⟩
      · rintro ⟨hx | hx, hne, hns⟩
        · exact Or.inl hx
        · by_cases hxv : x = v
          · exact Or.inl hxv
          · exact Or.inr ⟨hx, hne, fun hmem => by
              rcases hmem with h2 | h2
              · exact hxv h2
              · exact hns h2⟩

lemma dedupGo_nodup (seen l : List String) : (dedupGo seen l).Nodup := by
  induction l generalizing seen with
  | nil => simp [dedupGo]
  | cons v vs ih =>
    simp only [dedupGo]
    by_cases h : (v == "" || seen.contains v) = true
    · rw [if_pos h]; exact ih seen
    · rw [if_neg h]
      refine List.nodup_cons.mpr ⟨?_, ih (v :: seen)⟩
      intro hmem
      have := (mem_dedupGo (v :: seen) vs v).mp hmem
      exact this.2.2 (List.mem_cons_self v seen)

lemma dedupGo_fixed (seen l : List String) (h1 : l.Nodup)
    (h2 : ∀ x ∈ l, x ≠ "" ∧ x ∉ seen) : dedupGo seen l = l := by
  induction l generalizing seen with
  | nil => simp [dedupGo]
  | cons v vs ih =>
    have hv := h2 v (List.mem_cons_self v vs)
    simp only [dedupGo]
    rw [if_neg]
    · rw [ih (v :: seen) (List.Nodup.of_cons h1)]
      intro x hx
      refine ⟨(h2 x (List.mem_cons_of_mem v hx)).1, ?_⟩
      intro hmem
      rcases List.mem_cons.mp hmem with h3 | h3
      · subst h3
        exact (List.nodup_cons.mp h1).1 hx
      · exact (h2 x (List.mem_cons_of_mem v hx)).2 h3
    · simp only [Bool.or_eq_true, beq_iff_eq, contains_iff_mem]
      push_neg
      exact hv

lemma dedupGo_eq_specDedup (l : List String) : ∀ seen : List String,
    dedupGo seen l = specDedup (l.filter (fun v => !seen.contains v)) := by
  induction l with
  | nil => intro seen; simp [dedupGo, specDedup]
  | cons v vs ih =>
    intro seen
    by_cases hs : seen.contains v = true
    · rw [List.filter_cons]
      simp only [hs, Bool.not_true, Bool.false_eq_true, if_false]
      simp only [dedupGo, hs, Bool.or_true, if_true]
      exact ih seen
    · have hsb : seen.contains v = false := by
        cases h : seen.contains v
        · rfl
        · exact absurd h hs
      by_cases hv : v = ""
      · subst hv
        rw [List.filter_cons]
        simp only [hsb, Bool.not_false, if_true]
        simp only [dedupGo, hsb]
        rw [if_pos (by simp)]
        rw [specDedup]
        rw [if_pos rfl]
        exact ih seen
      · rw [List.filter_cons]
        simp only [hsb, Bool.not_false, if_true]
        simp only [dedupGo, hsb]
        rw [if_neg (by simp [hv])]
        rw [specDedup]
        rw [if_neg hv]
        rw [ih (v :: seen)]
        congr 1
        rw [List.filter_filter]
        refine congrArg specDedup ?_
        apply List.filter_congr
        intro x _
        simp only [List.contains_cons, Bool.not_or, bne]

lemma dedupGo_nil_eq_specDedup (l : List String) :
    dedupGo [] l = specDedup l := by
  rw [dedupGo_eq_specDedup l []]
  congr 1
  rw [List.filter_eq_self]
  intro a _
  simp

lemma csvCellsGo_eq_dedupGo (cells : List String) : ∀ seen : List String,
    csvCellsGo seen cells = dedupGo seen (cells.map normalizeOrg) := by
  induction cells with
  | nil => intro seen; simp [csvCellsGo, dedupGo]
  | cons v vs ih =>
    intro seen
    simp only [csvCellsGo, List.map_cons, dedupGo]
    by_cases h : (normalizeOrg v == "" || seen.contains (normalizeOrg v)) = true
    · rw [if_pos h, if_pos h]
      exact ih seen
    · rw [if_neg h, if_neg h]
      rw [ih (normalizeOrg v :: seen)]

/-! ## Engine lemmas -/

lemma runDelayLoop_counters (env : String → TargetBehavior) (d : Nat)
    (orgs : List String) : ∀ c : Counters,
    (runDelayLoop env d orgs c).1 =
      orgs.foldl (fun acc org => bump acc (classify (env org))) c := by
  induction orgs with
  | nil => intro c; rfl
  | cons org rest ih =>
    intro c
    simp only [List.foldl_cons]
    rcases hE : (env org).existsResult with e | bv
    · simp only [runDelayLoop, hE, classify]
      exact ih (bump c _)
    · cases bv
      · rcases hC : (env org).createResult with _ | e
        · simp only [runDelayLoop, hE, hC, classify]
          exact ih (bump c _)
        · simp only [runDelayLoop, hE, hC, classify]
          exact ih (bump c _)
      · simp only [runDelayLoop, hE, classify]
        exact ih (bump c _)

lemma sumCounters_bump (c : Counters) (o : Outcome) :
    sumCounters (bump c o) = sumCounters c + 1 := by
  cases o <;> simp [bump, sumCounters] <;> omega

lemma sumCounters_foldl (env : String → TargetBehavior) (l : List String) :
    ∀ c : Counters,
    sumCounters (l.foldl (fun acc org => bump acc (classify (env org))) c) =
      sumCounters c + l.length := by
  induction l with
  | nil => intro c; simp
  | cons x xs ih =>
    intro c
    simp only [List.foldl_cons, List.length_cons]
    rw [ih (bump c (classify (env x))), sumCounters_bump]
    omega

/-- C1: for every resolved target list and both execution strategies the
three counters partition the targets: successCount + warningCount +
errorCount equals the number of targets, each target bumping exactly one
counter exactly once (the completion order of the goroutine pool is some
permutation of the target list). -/
theorem counters_partition_run (env : String → TargetBehavior) (d : Nat)
    (orgs completionOrder : List String)
    (hperm : completionOrder.Perm orgs) :
    sumCounters (runDelayLoop env d orgs counters0).1 = orgs.length ∧
    sumCounters (concurrentCounters env completionOrder counters0) =
      orgs.length := by
  constructor
  · rw [runDelayLoop_counters, sumCounters_foldl]
    simp [counters0, sumCounters]
  · rw [concurrentCounters, sumCounters_foldl]
    simp [counters0, sumCounters, hperm.length_eq]

/-- Witness for `counters_partition_run` at a concrete run. -/
theorem counters_partition_run_witness :
    sumCounters (runDelayLoop (fun _ => ⟨Except.ok true, none⟩) 0
        ["a", "b"] counters0).1 = 2 ∧
    sumCounters (concurrentCounters (fun _ => ⟨Except.ok true, none⟩)
        ["b", "a"] counters0) = 2 :=
  counters_partition_run (fun _ => ⟨Except.ok true, none⟩) 0
    ["a", "b"] ["b", "a"] (by decide)

lemma finalRunError_ne_none (c : Counters) :
    finalRunError c ≠ none ↔ 0 < c.errorCount := by
  by_cases h : 0 < c.errorCount <;> simp [finalRunError, h]

/-- C4: the run's overall result is a failure signal iff the error counter is
nonzero after the batch — in either mode — and a zero error count yields the
nil result no matter the warning count. -/
theorem error_exit_signal (env : String → TargetBehavior) (d : Nat)
    (orgs completionOrder : List String) :
    (finalRunError (runDelayLoop env d orgs counters0).1 ≠ none ↔
      0 < (runDelayLoop env d orgs counters0).1.errorCount) ∧
    (finalRunError (concurrentCounters env completionOrder counters0) ≠ none ↔
      0 < (concurrentCounters env completionOrder counters0).errorCount) ∧
    (∀ s w : Nat, finalRunError ⟨s, w, 0⟩ = none) :=
  ⟨finalRunError_ne_none _, finalRunError_ne_none _, fun _ _ => rfl⟩

/-- C10: `uniqueStrings` keeps exactly the first occurrence of each distinct
non-empty value, in original relative order (it is the first-seen dedup
`specDedup`, a sublist of its input with no duplicates and no empties), and
it is idempotent — so the final dedup of the all-orgs resolver preserves
pagination discovery order. -/
theorem uniqueStrings_first_seen (l : List String) :
    uniqueStrings l = specDedup l ∧
    (uniqueStrings l).Nodup ∧
    (∀ x, x ∈ uniqueStrings l ↔ (x ∈ l ∧ x ≠ "")) ∧
    List.Sublist (uniqueStrings l) l ∧
    uniqueStrings (uniqueStrings l) = uniqueStrings l := by
  refine ⟨dedupGo_nil_eq_specDedup l, dedupGo_nodup [] l, ?_, dedupGo_sublist [] l, ?_⟩
  · intro x
    rw [uniqueStrings, mem_dedupGo]
    simp
  · rw [uniqueStrings, uniqueStrings]
    apply dedupGo_fixed [] (dedupGo [] l) (dedupGo_nodup [] l)
    intro x hx
    have := (mem_dedupGo [] l x).mp hx
    exact ⟨this.2.1, List.not_mem_nil x⟩

/-- C6: the CSV-backed target resolver returns the lower-cased, trimmed cell
values with empties and duplicates removed, in first-seen row-major order;
on the duplicate/mixed-case example it returns exactly ["orga", "orgb"]. -/
theorem csv_resolver_normalizes (records : List (List String)) :
    loadOrganizationsFromCSV records =
      specDedup ((records.flatten).map normalizeOrg) ∧
    loadOrganizationsFromCSV [["OrgA"], ["orga"], ["OrgB"]] =
      ["orga", "orgb"] := by
  constructor
  · rw [loadOrganizationsFromCSV, csvCellsGo_eq_dedupGo,
      dedupGo_nil_eq_specDedup]
  · decide

/-- C3 (counterexample): the claim "the existence check matches iff some
existing name equals the query after trimming and lower-casing BOTH names"
fails: for the existing role name " admin" and query "admin" the two names
agree after trimming and lower-casing, yet `roleExists` reports no match,
because the code never trims the existing names. -/
theorem roleExists_trim_both_cex :
    ¬ (roleExistsCore [" admin"] "admin" = true ↔
        ∃ r ∈ ([" admin"] : List String),
          strLower (strTrim r) = strLower (strTrim "admin")) := by
  decide

/-- C3 (amended): `roleExists` reports a match iff some existing role name,
lower-cased but NOT trimmed, equals the trimmed and lower-cased query; the
comparison is whole-string equality, never a substring match. -/
theorem roleExists_compare_amended (existingNames : List String)
    (roleName : String) :
    roleExistsCore existingNames roleName = true ↔
      ∃ r ∈ existingNames, strLower r = strLower (strTrim roleName) := by
  simp [roleExistsCore, List.any_eq_true]

/-- C9: `isNotFoundError` is decided purely by error text — false on nil,
and on a message exactly when the lower-cased text contains "404" or
"not found" — and consequently a failing existence check or create call is
classified as the not-found warning iff its message matches that test, a
warning bumping `warningCount` and never `errorCount`. -/
theorem notfound_text_classification (msg : String) (b : TargetBehavior) :
    (isNotFoundError none = false) ∧
    (isNotFoundError (some msg) =
      (strContainsSub (strLower msg) "404" ||
        strContainsSub (strLower msg) "not found")) ∧
    (b.existsResult = Except.error msg →
      ((classify b = Outcome.skippedNotFound ↔ isNotFoundError (some msg) = true) ∧
       (classify b = Outcome.failed ↔ isNotFoundError (some msg) = false))) ∧
    (b.existsResult = Except.ok false → b.createResult = some msg →
      ((classify b = Outcome.skippedNotFound ↔ isNotFoundError (some msg) = true) ∧
       (classify b = Outcome.failed ↔ isNotFoundError (some msg) = false))) ∧
    (∀ c, bump c Outcome.skippedNotFound =
      { c with warningCount := c.warningCount + 1 }) := by
  refine ⟨rfl, rfl, ?_, ?_, fun c => rfl⟩
  · intro hE
    cases hnf : isNotFoundError (some msg) <;>
      simp [classify, hE, hnf]
  · intro hE hC
    cases hnf : isNotFoundError (some msg) <;>
      simp [classify, hE, hC, hnf]

/-- Witness for `notfound_text_classification`: a create failure whose text
contains "404" is classified as the not-found warning. -/
theorem notfound_text_classification_witness :
    classify ⟨Except.ok false, some "HTTP 404: no such org"⟩ =
      Outcome.skippedNotFound :=
  ((notfound_text_classification "HTTP 404: no such org"
      ⟨Except.ok false, some "HTTP 404: no such org"⟩).2.2.2.1 rfl rfl).1.mpr
    (by decide)

/-! ## Delay-mode pacing (C2) -/

lemma runDelayLoop_trace (env : String → TargetBehavior) (d : Nat)
    (orgs : List String) : ∀ c : Counters,
    (runDelayLoop env d orgs c).2 = delayTraceSpec env d orgs := by
  induction orgs with
  | nil => intro c; rfl
  | cons org rest ih =>
    intro c
    rcases hE : (env org).existsResult with e | bv
    · cases hnf : isNotFoundError (some e) <;>
        simp [runDelayLoop, delayTraceSpec, hE, hnf, classify, ih]
    · cases bv
      · rcases hC : (env org).createResult with _ | e
        · by_cases hr : rest = []
          · subst hr
            simp [runDelayLoop, delayTraceSpec, hE, hC, classify]
          · have hre : rest.isEmpty = false := by
              cases rest
              · exact absurd rfl hr
              · rfl
            simp [runDelayLoop, delayTraceSpec, hE, hC, classify, ih, hre, hr]
        · cases hnf : isNotFoundError (some e) <;>
            simp [runDelayLoop, delayTraceSpec, hE, hC, hnf, classify, ih]
      · simp [runDelayLoop, delayTraceSpec, hE, classify, ih]

lemma statusEvents_delayTraceSpec (env : String → TargetBehavior) (d : Nat)
    (orgs : List String) :
    statusEvents (delayTraceSpec env d orgs) =
      orgs.map (fun org => (org, classify (env org))) := by
  induction orgs with
  | nil => rfl
  | cons org rest ih =>
    by_cases h : classify (env org) = Outcome.created ∧ rest ≠ [] <;>
      simp [delayTraceSpec, statusEvents, h, List.filterMap_append] <;>
      simpa [statusEvents] using ih

/-- C2 (counterexample): the claim that in delay-mode the engine pauses after
every non-last target regardless of its outcome is false: with a positive
delay and two targets that are both skipped (role already exists), the run's
trace contains no sleep at all — the `continue` in every non-success branch
jumps past the `time.Sleep` at the bottom of the loop. -/
theorem delay_pacing_claim_cex :
    (runDelayLoop (fun _ => ⟨Except.ok true, none⟩) 1
        ["orga", "orgb"] counters0).2 =
      [Event.status "orga" Outcome.skippedAlreadyExists,
       Event.status "orgb" Outcome.skippedAlreadyExists] ∧
    (runDelayLoop (fun _ => ⟨Except.ok true, none⟩) 1
        ["orga", "orgb"] counters0).2 ≠
      claimedDelayTrace (fun _ => ⟨Except.ok true, none⟩) 1 []
        ["orga", "orgb"] := by
  constructor
  · decide
  · decide

/-- C2 (amended): in delay-mode (delay > 0) targets are processed strictly
sequentially in resolved-list order — the status units appear in exactly
list order — and the engine pauses for the configured delay after a target
iff that target's outcome was Created and it is not the last target; after
skipped or failed targets it proceeds immediately. -/
theorem delay_mode_trace_amended (env : String → TargetBehavior) (d : Nat)
    (orgs : List String) (c : Counters) (_hd : 0 < d) :
    (runDelayLoop env d orgs c).2 = delayTraceSpec env d orgs ∧
    statusEvents (runDelayLoop env d orgs c).2 =
      orgs.map (fun org => (org, classify (env org))) := by
  refine ⟨runDelayLoop_trace env d orgs c, ?_⟩
  rw [runDelayLoop_trace env d orgs c, statusEvents_delayTraceSpec]

/-- Witness for `delay_mode_trace_amended` at a concrete positive delay. -/
theorem delay_mode_trace_amended_witness :
    (runDelayLoop (fun _ => ⟨Except.ok false, none⟩) 1
        ["a", "b"] counters0).2 =
      delayTraceSpec (fun _ => ⟨Except.ok false, none⟩) 1 ["a", "b"] ∧
    statusEvents (runDelayLoop (fun _ => ⟨Except.ok false, none⟩) 1
        ["a", "b"] counters0).2 =
      ["a", "b"].map (fun org =>
        (org, classify ((fun _ => (⟨Except.ok false, none⟩ : TargetBehavior)) org))) :=
  delay_mode_trace_amended (fun _ => ⟨Except.ok false, none⟩) 1
    ["a", "b"] counters0 (by decide)

/-! ## Pagination abort (C7) -/

/-- C7: if any page of the paginated directory listing fails, the whole
listing aborts and surfaces exactly that error — identifiers accumulated
from the earlier successful pages are never returned — both for the bare
loop from any accumulator and for `fetchOrganizations` as a whole. -/
theorem pagination_abort_on_error (pages : List OrgPage) (e : String)
    (rest : List (Except String OrgPage)) (acc : List String)
    (hall : ∀ p ∈ pages, p.hasNextPage = true) :
    fetchOrgsPages (pages.map Except.ok ++ Except.error e :: rest) acc =
      some (Except.error e) ∧
    fetchOrganizations "corp" (pages.map Except.ok ++ Except.error e :: rest) =
      some (Except.error e) := by
  have main : ∀ (ps : List OrgPage) (a : List String),
      (∀ p ∈ ps, p.hasNextPage = true) →
      fetchOrgsPages (ps.map Except.ok ++ Except.error e :: rest) a =
        some (Except.error e) := by
    intro ps
    induction ps with
    | nil => intro a _; rfl
    | cons p ps2 ih =>
      intro a h
      have hp := h p (List.mem_cons_self p ps2)
      simp only [List.map_cons, List.cons_append, fetchOrgsPages, hp, if_true]
      exact ih _ (fun q hq => h q (List.mem_cons_of_mem p hq))
  refine ⟨main pages acc hall, ?_⟩
  rw [fetchOrganizations]
  rw [if_neg (by decide)]
  exact main pages [] hall

/-- Witness for `pagination_abort_on_error`: one good page followed by a
failing page surfaces the failure and drops the page-one identifiers. -/
theorem pagination_abort_on_error_witness :
    fetchOrgsPages ([(⟨["x"], true, "c1"⟩ : OrgPage)].map Except.ok ++
        Except.error "boom" :: []) [] = some (Except.error "boom") ∧
    fetchOrganizations "corp" ([(⟨["x"], true, "c1"⟩ : OrgPage)].map Except.ok ++
        Except.error "boom" :: []) = some (Except.error "boom") :=
  pagination_abort_on_error [⟨["x"], true, "c1"⟩] "boom" [] [] (by decide)

/-! ## Strategy configuration (C8) -/

/-- C8: a configuration with delay > 0 and concurrency > 1 is rejected before
any target is processed — both values can only exceed their defaults when
their flags were set, and cobra rejects setting both mutually exclusive
flags; moreover concurrency outside 1..20 and negative delay are each
rejected, and under the rejected combination the whole batch returns the
configuration error without producing any counters. -/
theorem strategy_config_rejected (f : FlagInput) :
    (0 < effectiveDelay f → 1 < effectiveConcurrency f →
      validateStrategy f = Except.error ConfigError.mutuallyExclusiveFlags) ∧
    (effectiveConcurrency f < 1 ∨ 20 < effectiveConcurrency f →
      ∃ err, validateStrategy f = Except.error err) ∧
    (effectiveDelay f < 0 → ∃ err, validateStrategy f = Except.error err) ∧
    (∀ (env : String → TargetBehavior) (orgs completionOrder : List String),
      0 < effectiveDelay f → 1 < effectiveConcurrency f →
      runCreateBatch f env orgs completionOrder =
        Except.error ConfigError.mutuallyExclusiveFlags) := by
  have hmx : 0 < effectiveDelay f → 1 < effectiveConcurrency f →
      validateStrategy f = Except.error ConfigError.mutuallyExclusiveFlags := by
    intro hd hc
    have hds : f.delaySet = true := by
      by_contra h
      have hb : f.delaySet = false := by
        cases hh : f.delaySet
        · rfl
        · exact absurd hh h
      rw [effectiveDelay, hb] at hd
      simp at hd
    have hcs : f.concurrencySet = true := by
      by_contra h
      have hb : f.concurrencySet = false := by
        cases hh : f.concurrencySet
        · rfl
        · exact absurd hh h
      rw [effectiveConcurrency, hb] at hc
      simp at hc
    rw [validateStrategy, if_pos (by rw [hds, hcs]; rfl)]
  refine ⟨hmx, ?_, ?_, ?_⟩
  · intro h
    rw [validateStrategy]
    by_cases h1 : (f.delaySet && f.concurrencySet) = true
    · rw [if_pos h1]; exact ⟨_, rfl⟩
    · rw [if_neg h1, if_pos h]
      exact ⟨_, rfl⟩
  · intro h
    rw [validateStrategy]
    by_cases h1 : (f.delaySet && f.concurrencySet) = true
    · rw [if_pos h1]; exact ⟨_, rfl⟩
    · rw [if_neg h1]
      by_cases h2 : effectiveConcurrency f < 1 ∨ 20 < effectiveConcurrency f
      · rw [if_pos h2]; exact ⟨_, rfl⟩
      · rw [if_neg h2, if_pos h]
        exact ⟨_, rfl⟩
  · intro env orgs completionOrder hd hc
    rw [runCreateBatch, hmx hd hc]

/-- Witness for `strategy_config_rejected`: delay 5 with concurrency 4. -/
theorem strategy_config_rejected_witness :
    validateStrategy ⟨true, 5, true, 4⟩ =
      Except.error ConfigError.mutuallyExclusiveFlags :=
  (strategy_config_rejected ⟨true, 5, true, 4⟩).1 (by decide) (by decide)

/-! ## Concurrency-mode atomicity (C5) -/

lemma concBody_eq (b : TargetBehavior) :
    concBody b = List.replicate (preLen b) Instr.work ++
      Instr.lock :: (Instr.eff EffKind.statusLine :: Instr.eff EffKind.counterUpdate ::
        Instr.eff EffKind.progressTick :: [Instr.unlock]) := by
  rcases b with ⟨er, cr⟩
  rcases er with e | bv
  · rfl
  · cases bv <;> rfl

lemma concBody_get_lock {b : TargetBehavior} {k : Nat}
    (h : (concBody b)[k]? = some Instr.lock) : k = preLen b := by
  rcases b with ⟨er, cr⟩
  rcases er with e | bv
  · rcases k with _|_|_|_|_|_|k <;> simp_all [concBody, preLen]
  · cases bv
    · rcases k with _|_|_|_|_|_|_|k <;> simp_all [concBody, preLen]
    · rcases k with _|_|_|_|_|_|k <;> simp_all [concBody, preLen]

lemma concBody_get_unlock {b : TargetBehavior} {k : Nat}
    (h : (concBody b)[k]? = some Instr.unlock) : k = preLen b + 4 := by
  rcases b with ⟨er, cr⟩
  rcases er with e | bv
  · rcases k with _|_|_|_|_|_|k <;> simp_all [concBody, preLen]
  · cases bv
    · rcases k with _|_|_|_|_|_|_|k <;> simp_all [concBody, preLen]
    · rcases k with _|_|_|_|_|_|k <;> simp_all [concBody, preLen]

lemma concBody_get_eff {b : TargetBehavior} {k : Nat} {kd : EffKind}
    (h : (concBody b)[k]? = some (Instr.eff kd)) :
    preLen b + 1 ≤ k ∧ k ≤ preLen b + 3 := by
  rcases b with ⟨er, cr⟩
  rcases er with e | bv
  · rcases k with _|_|_|_|_|_|k <;> simp_all [concBody, preLen]
  · cases bv
    · rcases k with _|_|_|_|_|_|_|k <;> simp_all [concBody, preLen]
    · rcases k with _|_|_|_|_|_|k <;> simp_all [concBody, preLen]

lemma concBody_get_lt {b : TargetBehavior} {k : Nat} {i : Instr}
    (h : (concBody b)[k]? = some i) : k < preLen b + 5 := by
  have hlen : (concBody b).length = preLen b + 5 := by
    rcases b with ⟨er, cr⟩
    rcases er with e | bv
    · rfl
    · cases bv <;> rfl
  by_contra hk
  push_neg at hk
  rw [List.getElem?_eq_none (by omega)] at h
  exact Option.noConfusion h

lemma concBody_lock_at (b : TargetBehavior) :
    (concBody b)[preLen b]? = some Instr.lock := by
  rcases b with ⟨er, cr⟩
  rcases er with e | bv
  · rfl
  · cases bv <;> rfl

lemma concBody_unlock_at (b : TargetBehavior) :
    (concBody b)[preLen b + 4]? = some Instr.unlock := by
  rcases b with ⟨er, cr⟩
  rcases er with e | bv
  · rfl
  · cases bv <;> rfl

lemma goStep_at {n : Nat} {body : Fin n → List Instr} {s : SchedState n}
    {t : Fin n} {i : Instr} {s2 : SchedState n}
    (h : GoStep body s (t, i) s2) : (body t)[s.done t]? = some i := by
  cases h <;> assumption

lemma goStep_done_self {n : Nat} {body : Fin n → List Instr} {s : SchedState n}
    {t : Fin n} {i : Instr} {s2 : SchedState n}
    (h : GoStep body s (t, i) s2) : s2.done t = s.done t + 1 := by
  cases h <;> simp [Function.update_same]

lemma goStep_done_ne {n : Nat} {body : Fin n → List Instr} {s : SchedState n}
    {t0 : Fin n} {i : Instr} {s2 : SchedState n} (t : Fin n)
    (h : GoStep body s (t0, i) s2) (hne : t ≠ t0) : s2.done t = s.done t := by
  cases h <;> simp [Function.update_noteq hne]

lemma inv_init {n : Nat} (B : Fin n → TargetBehavior) :
    InvProp B (initState n) := by
  constructor
  · intro t; simp [initState]
  · intro t
    simp only [initState]
    constructor
    · intro hh; exact Option.noConfusion hh
    · intro hh; omega

lemma inv_step {n : Nat} {B : Fin n → TargetBehavior} {s : SchedState n}
    {e : Fin n × Instr} {s2 : SchedState n}
    (h : GoStep (fun u => concBody (B u)) s e s2) (hInv : InvProp B s) :
    InvProp B s2 := by
  obtain ⟨hbound, hiff⟩ := hInv
  cases h with
  | lock t3 h1 h2 =>
    have hk : s.done t3 = preLen (B t3) :=
      concBody_get_lock (by simpa [bodyAt] using h1)
    constructor
    · intro u
      by_cases hu : u = t3
      · subst hu
        show Function.update s.done u (s.done u + 1) u ≤ preLen (B u) + 5
        rw [Function.update_same]
        omega
      · show Function.update s.done t3 (s.done t3 + 1) u ≤ preLen (B u) + 5
        rw [Function.update_noteq hu]
        exact hbound u
    · intro u
      by_cases hu : u = t3
      · subst hu
        show some u = some u ↔
          (preLen (B u) < Function.update s.done u (s.done u + 1) u ∧
            Function.update s.done u (s.done u + 1) u ≤ preLen (B u) + 4)
        rw [Function.update_same]
        constructor
        · intro _; omega
        · intro _; rfl
      · show some t3 = some u ↔
          (preLen (B u) < Function.update s.done t3 (s.done t3 + 1) u ∧
            Function.update s.done t3 (s.done t3 + 1) u ≤ preLen (B u) + 4)
        rw [Function.update_noteq hu]
        constructor
        · intro hsome
          exact absurd (Option.some.inj hsome).symm hu
        · intro hwin
          have h3 := (hiff u).mpr hwin
          rw [h2] at h3
          exact Option.noConfusion h3
  | unlock t3 h1 h2 =>
    have hk : s.done t3 = preLen (B t3) + 4 :=
      concBody_get_unlock (by simpa [bodyAt] using h1)
    constructor
    · intro u
      by_cases hu : u = t3
      · subst hu
        show Function.update s.done u (s.done u + 1) u ≤ preLen (B u) + 5
        rw [Function.update_same]
        omega
      · show Function.update s.done t3 (s.done t3 + 1) u ≤ preLen (B u) + 5
        rw [Function.update_noteq hu]
        exact hbound u
    · intro u
      by_cases hu : u = t3
      · subst hu
        show (none : Option (Fin n)) = some u ↔
          (preLen (B u) < Function.update s.done u (s.done u + 1) u ∧
            Function.update s.done u (s.done u + 1) u ≤ preLen (B u) + 4)
        rw [Function.update_same]
        constructor
        · intro hsome; exact Option.noConfusion hsome
        · intro hwin; exfalso; omega
      · show (none : Option (Fin n)) = some u ↔
          (preLen (B u) < Function.update s.done t3 (s.done t3 + 1) u ∧
            Function.update s.done t3 (s.done t3 + 1) u ≤ preLen (B u) + 4)
        rw [Function.update_noteq hu]
        constructor
        · intro hsome; exact Option.noConfusion hsome
        · intro hwin
          have h3 := (hiff u).mpr hwin
          rw [h2] at h3
          exact absurd (Option.some.inj h3).symm hu
  | basic t3 i3 h1 h2 h3 =>
    have hat : (concBody (B t3))[s.done t3]? = some i3 := by
      simpa [bodyAt] using h1
    have hk := concBody_get_lt hat
    have hkl : s.done t3 ≠ preLen (B t3) := by
      intro hEq
      rw [hEq, concBody_lock_at] at hat
      exact h2 (Option.some.inj hat).symm
    have hku : s.done t3 ≠ preLen (B t3) + 4 := by
      intro hEq
      rw [hEq, concBody_unlock_at] at hat
      exact h3 (Option.some.inj hat).symm
    constructor
    · intro u
      by_cases hu : u = t3
      · subst hu
        show Function.update s.done u (s.done u + 1) u ≤ preLen (B u) + 5
        rw [Function.update_same]
        omega
      · show Function.update s.done t3 (s.done t3 + 1) u ≤ preLen (B u) + 5
        rw [Function.update_noteq hu]
        exact hbound u
    · intro u
      by_cases hu : u = t3
      · subst hu
        show s.holder = some u ↔
          (preLen (B u) < Function.update s.done u (s.done u + 1) u ∧
            Function.update s.done u (s.done u + 1) u ≤ preLen (B u) + 4)
        rw [Function.update_same]
        constructor
        · intro hsome
          have hw := (hiff u).mp hsome
          omega
        · intro hwin
          exact (hiff u).mpr (by omega)
      · show s.holder = some u ↔
          (preLen (B u) < Function.update s.done t3 (s.done t3 + 1) u ∧
            Function.update s.done t3 (s.done t3 + 1) u ≤ preLen (B u) + 4)
        rw [Function.update_noteq hu]
        exact hiff u

lemma inv_trace {n : Nat} {B : Fin n → TargetBehavior}
    {tr : List (Fin n × Instr)} {s : SchedState n}
    (h : GoTrace (fun u => concBody (B u)) (initState n) tr s) :
    InvProp B s := by
  induction h with
  | nil => exact inv_init B
  | snoc tr2 s3 e s2 htr hstep ih => exact inv_step hstep ih

lemma eventsOf_append {n : Nat} (t : Fin n) (a b : List (Fin n × Instr)) :
    eventsOf t (a ++ b) = eventsOf t a ++ eventsOf t b := by
  simp [eventsOf, List.filterMap_append]

lemma trace_events {n : Nat} {B : Fin n → TargetBehavior}
    {tr : List (Fin n × Instr)} {s : SchedState n}
    (h : GoTrace (fun u => concBody (B u)) (initState n) tr s) (t : Fin n) :
    eventsOf t tr = (concBody (B t)).take (s.done t) := by
  induction h with
  | nil => simp [eventsOf, initState]
  | snoc tr2 s3 e s2 htr hstep ih =>
    obtain ⟨t0, i⟩ := e
    rw [eventsOf_append]
    by_cases hu : t0 = t
    · subst hu
      have hat : (concBody (B t0))[s3.done t0]? = some i := by
        simpa [bodyAt] using goStep_at hstep
      have hdone := goStep_done_self hstep
      rw [ih, hdone, List.take_succ, hat]
      simp [eventsOf]
    · have hdone := goStep_done_ne t hstep (fun hh => hu hh.symm)
      rw [ih, hdone]
      simp [eventsOf, hu]

lemma trace_done_mono {n : Nat} {body : Fin n → List Instr}
    {s0 : SchedState n} {tr : List (Fin n × Instr)} {s : SchedState n}
    (h : GoTrace body s0 tr s) (t : Fin n) : s0.done t ≤ s.done t := by
  induction h with
  | nil => exact Nat.le_refl _
  | snoc tr2 s3 e s2 htr hstep ih =>
    obtain ⟨t0, i⟩ := e
    by_cases hu : t = t0
    · subst hu
      have := goStep_done_self hstep
      omega
    · have := goStep_done_ne t hstep hu
      omega

lemma trace_append_split {n : Nat} {body : Fin n → List Instr}
    {s0 : SchedState n} {tr : List (Fin n × Instr)} {s : SchedState n}
    (h : GoTrace body s0 tr s) :
    ∀ a b, tr = a ++ b → ∃ m, GoTrace body s0 a m ∧ GoTrace body m b s := by
  induction h with
  | nil =>
    intro a b hab
    obtain ⟨ha, hb⟩ := List.append_eq_nil.mp hab.symm
    subst ha; subst hb
    exact ⟨s0, GoTrace.nil, GoTrace.nil⟩
  | snoc tr2 s3 e s2 htr hstep ih =>
    intro a b hab
    rcases List.eq_nil_or_concat b with hb | ⟨b2, x, hb⟩
    · subst hb
      rw [List.append_nil] at hab
      subst hab
      exact ⟨s2, GoTrace.snoc tr2 s3 e s2 htr hstep, GoTrace.nil⟩
    · rw [List.concat_eq_append] at hb
      subst hb
      rw [← List.append_assoc] at hab
      have hlen : tr2.length = (a ++ b2).length := by
        have h6 := congrArg List.length hab
        simp [List.length_append] at h6 ⊢
        omega
      obtain ⟨h4, h5⟩ := List.append_inj hab hlen
      have hx : e = x := by simpa using h5
      obtain ⟨m, hm1, hm2⟩ := ih a b2 h4
      exact ⟨m, hm1, GoTrace.snoc b2 s3 x s2 hm2 (hx ▸ hstep)⟩

lemma trace_nil_inv {n : Nat} {body : Fin n → List Instr}
    {m s : SchedState n} {tr : List (Fin n × Instr)}
    (h : GoTrace body m tr s) (he : tr = []) : s = m := by
  cases h with
  | nil => rfl
  | snoc tr2 s3 e s2 htr hstep => simp at he

lemma trace_singleton_inv {n : Nat} {body : Fin n → List Instr}
    {m s : SchedState n} {tr : List (Fin n × Instr)} {e : Fin n × Instr}
    (h : GoTrace body m tr s) (he : tr = [e]) : GoStep body m e s := by
  cases h with
  | nil => simp at he
  | snoc tr2 s3 e2 s2 htr hstep =>
    cases tr2 with
    | nil =>
      have h3 : e2 = e := by simpa using he
      subst h3
      have h4 := trace_nil_inv htr rfl
      subst h4
      exact hstep
    | cons y ys => simp at he

/-- C5: under concurrency-mode parallelism each target's three terminal
effects (status line, counter increment, progress tick) form one atomic unit
with respect to every other target's unit: every goroutine body consists of
un-shared work followed by one mutex critical section containing exactly the
three effects, and in every valid interleaving of the goroutine pool no
effect of another target can occur between two effects of the same target. -/
theorem conc_effects_atomic {n : Nat} (B : Fin n → TargetBehavior)
    (tr : List (Fin n × Instr)) (s : SchedState n) (t t2 : Fin n)
    (htr : GoTrace (fun u => concBody (B u)) (initState n) tr s)
    (hne : t ≠ t2) :
    (∀ b, concBody b = List.replicate (preLen b) Instr.work ++
      Instr.lock :: (Instr.eff EffKind.statusLine ::
        Instr.eff EffKind.counterUpdate ::
        Instr.eff EffKind.progressTick :: [Instr.unlock])) ∧
    ¬ EffInterleaved tr t t2 := by
  refine ⟨concBody_eq, ?_⟩
  rintro ⟨l1, k1, l2, k2, l3, k3, l4, heq⟩
  obtain ⟨sA, hA, hRest⟩ := trace_append_split htr
    (l1 ++ (t, Instr.eff k1) :: l2)
    ((t2, Instr.eff k2) :: (l3 ++ (t, Instr.eff k3) :: l4))
    (by rw [heq]; simp)
  obtain ⟨sB, hB1, hB2⟩ := trace_append_split hRest
    [(t2, Instr.eff k2)] (l3 ++ (t, Instr.eff k3) :: l4) rfl
  have hstep2 : GoStep (fun u => concBody (B u)) sA (t2, Instr.eff k2) sB :=
    trace_singleton_inv hB1 rfl
  obtain ⟨sC, hC1, hC2⟩ := trace_append_split hB2 l3 ((t, Instr.eff k3) :: l4) rfl
  obtain ⟨sD, hD1, hD2⟩ := trace_append_split hC2 [(t, Instr.eff k3)] l4 rfl
  have hstep3 : GoStep (fun u => concBody (B u)) sC (t, Instr.eff k3) sD :=
    trace_singleton_inv hD1 rfl
  have hInvA : InvProp B sA := inv_trace hA
  have hat2 : (concBody (B t2))[sA.done t2]? = some (Instr.eff k2) := by
    simpa [bodyAt] using goStep_at hstep2
  have hw2 := concBody_get_eff hat2
  have hhold2 : sA.holder = some t2 := (hInvA.2 t2).mpr (by omega)
  have hev := trace_events hA t
  have hmem : Instr.eff k1 ∈ (concBody (B t)).take (sA.done t) := by
    rw [← hev]
    simp only [eventsOf, List.mem_filterMap]
    refine ⟨(t, Instr.eff k1), by simp, by simp⟩
  obtain ⟨idx1, hidx1a, hidx1b⟩ :
      ∃ idx, idx < sA.done t ∧ (concBody (B t))[idx]? = some (Instr.eff k1) := by
    obtain ⟨j, hj⟩ := List.getElem?_of_mem hmem
    have hjl : j < ((concBody (B t)).take (sA.done t)).length := by
      by_contra hc
      push_neg at hc
      rw [List.getElem?_eq_none hc] at hj
      exact Option.noConfusion hj
    rw [List.length_take] at hjl
    have hjn : j < sA.done t := by omega
    refine ⟨j, hjn, ?_⟩
    rw [List.getElem?_take, if_pos hjn] at hj
    exact hj
  have hlow := concBody_get_eff hidx1b
  have hat3 : (concBody (B t))[sC.done t]? = some (Instr.eff k3) := by
    simpa [bodyAt] using goStep_at hstep3
  have hw3 := concBody_get_eff hat3
  have hm1 : sB.done t = sA.done t := goStep_done_ne t hstep2 hne
  have hm2 : sB.done t ≤ sC.done t := trace_done_mono hC1 t
  have hhold1 : sA.holder = some t := (hInvA.2 t).mpr (by omega)
  rw [hhold1] at hhold2
  exact hne (Option.some.inj hhold2)

/-- Witness for `conc_effects_atomic`: a one-step schedule of a two-goroutine
pool has no interleaved effect units. -/
theorem conc_effects_atomic_witness :
    ¬ EffInterleaved [((0 : Fin 2), Instr.work)] 0 1 :=
  (conc_effects_atomic (fun _ => ⟨Except.ok true, none⟩)
    [((0 : Fin 2), Instr.work)]
    ⟨Function.update (initState 2).done 0 ((initState 2).done 0 + 1),
      (initState 2).holder⟩ 0 1
    (GoTrace.snoc [] (initState 2) ((0 : Fin 2), Instr.work) _ GoTrace.nil
      (GoStep.basic (initState 2) 0 Instr.work rfl
        (by decide) (by decide)))
    (by decide)).2
